import Mathlib

/-!
# blevetest: batched ingestion of a tar.gz archive and rendering of query hits

Shallow embedding of `pkg/index/index.go` (`Index.IndexFromTarGz`, `Index.Search`) and of the
two commands `cmd/index/main.go` and `cmd/search/main.go`.

The external collaborators (the file system, the gzip and tar readers, the bleve index) are
parameters of the model: every call the Go code makes to one of them is answered by the
environment, and every such call is recorded in a log together with the value of the local
variable `batch` right after the call.

Go strings are modelled as Lean strings and Go's `int` as the integers between `MinInt` and
`MaxInt` with explicit wrap-around. The `log.Printf` lines of `IndexFromTarGz` (wall-clock
timings) and the `defer f.Close()` of the archive file are left out, and so is the check of
lines 70-72, which tests an `err` that is `nil` at that point.
-/

set_option autoImplicit false

namespace Blevetest

/-! ## Go values -/

/-- Go `error` values are represented by their message (`err.Error()`). -/
abbrev Error := String

/-- Smallest value of Go's `int` on a 64-bit platform. -/
def MinInt : Int := -9223372036854775808

/-- Largest value of Go's `int` on a 64-bit platform. -/
def MaxInt : Int := 9223372036854775807

/-- A Go `int`: a 64-bit two's complement integer. -/
structure GoInt where
  val : Int
  ge : MinInt ≤ val
  le : val ≤ MaxInt

/-- The batch size 2 as a Go `int`. -/
def two : GoInt := ⟨2, by decide, by decide⟩

/-- The batch size 100 that `cmd/index/main.go` passes. -/
def hundred : GoInt := ⟨100, by decide, by decide⟩

/-- Two's complement wrap-around of Go `int` arithmetic (`+`, `-`, `++` never trap). -/
def wrapInt (x : Int) : Int :=
  (x + 9223372036854775808) % 18446744073709551616 - 9223372036854775808

/-- The constant `tar.TypeReg`, the byte `'0'`. -/
def TypeReg : Nat := 48

/-- The constant `tar.TypeDir`, the byte `'5'`. -/
def TypeDir : Nat := 53

/-- The fields of `tar.Header` that the code reads. `Typeflag` is a byte. -/
structure Header where
  Name : String
  Typeflag : Nat
deriving DecidableEq, Repr

/-- The Go struct `IndexEntry` of `pkg/index/index.go`. -/
structure IndexEntry where
  ID : String
  Contents : String
deriving DecidableEq, Repr

/-- Modelled from the spec: the type `bleve.Batch` belongs to the external search library. The spec
(section 3, "Batch", and section 6, `handle.bulkWrite`) describes it as an ordered list of
`(id, record)` pairs; `batch.Index(id, data)` appends one pair, `batch.Size()` is the number of
pairs and `NewBatch()` is the empty list. -/
abbrev Batch := List (String × IndexEntry)

/-! ## The environment -/

/-- What the tar reader yields for one entry of the stream: either `tarReader.Next()` fails with
an error other than `io.EOF`, or it returns a header, and a later `ioutil.ReadAll(tarReader)`
returns the body of that entry or fails. The end of the list is `io.EOF`. -/
inductive TarItem where
  | entry (header : Header) (body : Except Error String)
  | bad (err : Error)

/-- The outcome of `os.Open` followed by `gzip.NewReader` on a file name. -/
inductive Source where
  | openErr (err : Error)
  | gzipErr (err : Error)
  | stream (items : List TarItem)

/-- The bleve index behind a handle, as a state machine over its own state `σ`:
`Index s batch id data` is the outcome of `batch.Index(id, data)` (the error, if any) on a
batch of the index in state `s`, and `Batch` is `idx.index.Batch(batch)`, which yields the
next state of the store and the error, if any. -/
structure Bleve (σ : Type) where
  Index : σ → Batch → String → IndexEntry → Option Error
  Batch : σ → Batch → σ × Option Error

/-! ## The log of a run -/

/-- The calls `IndexFromTarGz` makes to its collaborators. -/
inductive Call where
  | osOpen
  | gzipNewReader
  | tarNext
  | readAll
  | batchIndex (id : String) (data : IndexEntry)
  | indexBatch (batch : Batch)
deriving DecidableEq, Repr

/-- One entry of the log: the call, the failure it reported (`io.EOF` from `tarReader.Next` is
the regular end of the stream, not a failure), and the value of the local variable `batch` right
after the call (empty while the variable does not exist yet). -/
structure Step where
  call : Call
  err : Option Error
  pending : Batch
deriving DecidableEq, Repr

/-- What a run of `IndexFromTarGz` leaves behind: the log, the returned `error` (`none` is
Go's `nil`) and the state of the store. -/
structure Run (σ : Type) where
  steps : List Step
  err : Option Error
  store : σ

/-- Puts the steps already taken in front of the log of the rest of the run. -/
def Run.after {σ : Type} (pre : List Step) (r : Run σ) : Run σ :=
  { r with steps := pre ++ r.steps }

/-! ## `Index.IndexFromTarGz` -/

/-- The `for` loop of `IndexFromTarGz` (lines 77-118) followed by the final flush
(lines 120-127), from the loop head with the tar stream `items` still unread. -/
def ingestLoop {σ : Type} (b : Bleve σ) (tgzFilename : String) (batchSize : GoInt) :
    List TarItem → Batch → Int → σ → Run σ
  | [], batch, _, s =>
      -- `err == io.EOF`: break
      let nx : Step := ⟨Call.tarNext, none, batch⟩
      if batch.length > 0 then
        match b.Batch s batch with
        | (s', some e) =>
            ⟨[nx, ⟨Call.indexBatch batch, some e, batch⟩],
              some ("Error indexing last batch from " ++ tgzFilename ++ ": " ++ e), s'⟩
        | (s', none) => ⟨[nx, ⟨Call.indexBatch batch, none, batch⟩], none, s'⟩
      else ⟨[nx], none, s⟩
  | TarItem.bad e :: _, batch, _, s =>
      ⟨[⟨Call.tarNext, some e, batch⟩],
        some ("Unable to read tar file " ++ tgzFilename ++ ": " ++ e), s⟩
  | TarItem.entry header body :: rest, batch, batchCount, s =>
      let nx : Step := ⟨Call.tarNext, none, batch⟩
      if header.Typeflag ≠ TypeReg then
        (ingestLoop b tgzFilename batchSize rest batch batchCount s).after [nx]
      else
        match body with
        | Except.error e =>
            ⟨[nx, ⟨Call.readAll, some e, batch⟩],
              some ("Error reading " ++ header.Name ++ " from " ++ tgzFilename ++ ": " ++ e), s⟩
        | Except.ok data =>
            let rd : Step := ⟨Call.readAll, none, batch⟩
            let ent : IndexEntry := ⟨header.Name, data⟩
            match b.Index s batch header.Name ent with
            | some e =>
                ⟨[nx, rd, ⟨Call.batchIndex header.Name ent, some e, batch⟩],
                  some ("Error indexing " ++ header.Name ++ " from " ++ tgzFilename ++ ": " ++ e),
                  s⟩
            | none =>
                let batch := batch ++ [(header.Name, ent)]
                let st : Step := ⟨Call.batchIndex header.Name ent, none, batch⟩
                let batchCount := wrapInt (batchCount + 1)
                if batchCount = batchSize.val then
                  match b.Batch s batch with
                  | (s', some e) =>
                      ⟨[nx, rd, st, ⟨Call.indexBatch batch, some e, batch⟩],
                        some ("Error indexing " ++ header.Name ++ " from " ++ tgzFilename
                          ++ ": " ++ e), s'⟩
                  | (s', none) =>
                      (ingestLoop b tgzFilename batchSize rest [] 0 s').after
                        [nx, rd, st, ⟨Call.indexBatch batch, none, batch⟩]
                else
                  (ingestLoop b tgzFilename batchSize rest batch batchCount s).after [nx, rd, st]

/-- The method `Index.IndexFromTarGz` (lines 57-128). `src` is what the environment answers to
`os.Open(tgzFilename)` and `gzip.NewReader`, `s` is the state of the store behind `idx.index`.
The `log.Printf` lines, which report wall-clock timings, are not part of the model. -/
def IndexFromTarGz {σ : Type} (b : Bleve σ) (src : String → Source) (s : σ)
    (tgzFilename : String) (batchSize : GoInt) : Run σ :=
  match src tgzFilename with
  | Source.openErr e =>
      ⟨[⟨Call.osOpen, some e, []⟩], some ("Unable to open " ++ tgzFilename ++ ": " ++ e), s⟩
  | Source.gzipErr e =>
      ⟨[⟨Call.osOpen, none, []⟩, ⟨Call.gzipNewReader, some e, []⟩],
        some ("Unable to unzip " ++ tgzFilename ++ ": " ++ e), s⟩
  | Source.stream items =>
      (ingestLoop b tgzFilename batchSize items [] (wrapInt (batchSize.val - 1)) s).after
        [⟨Call.osOpen, none, []⟩, ⟨Call.gzipNewReader, none, []⟩]

/-! ## `Index.Search`: rendering of highlight fragments -/

/-- Go's `strings.Join`. -/
def strings.Join : List String → String → String
  | [], _ => ""
  | [a], _ => a
  | a :: b :: rest, sep => a ++ sep ++ strings.Join (b :: rest) sep

/-- Replaces every match of the pattern `\n` (one newline character) by `repl`, scanning the
text from left to right. -/
def replaceNewlines (repl : List Char) : List Char → List Char
  | [] => []
  | c :: cs => if c = '\n' then repl ++ replaceNewlines repl cs else c :: replaceNewlines repl cs

/-- The method `ReplaceAllString` of `re`, the regular expression `regexp.MustCompile("\\n")`
of line 130, for a replacement text without `$`. -/
def re.ReplaceAllString (src repl : String) : String :=
  ⟨replaceNewlines repl.data src.data⟩

/-- The text printed after `val=` for one entry of `hit.Fragments` (line 153). -/
def fragmentText (val : List String) : String :=
  re.ReplaceAllString (strings.Join val " ") " "

/-- The line printed for one entry of `hit.Fragments` (line 153). -/
def fragmentLine (fld : String) (val : List String) : String :=
  "  Fragment field='" ++ fld ++ "' val='" ++ fragmentText val ++ "'\n"

/-- The part of a hit that the rendering of fragments reads; `Fragments` is the Go map in
the order in which `range` visits it. -/
structure Hit where
  ID : String
  Fragments : List (String × List String)

/-- The method `Index.Search` (lines 132-169): the returned `error` and the fragment lines
printed, hit by hit. `query` is what `idx.index.Search` answers. The lines that print the rank,
the score and the term locations are not part of the model. -/
def Search {σ : Type} (query : σ → String → Except Error (List Hit)) (s : σ) (terms : String) :
    Option Error × List String :=
  match query s terms with
  | Except.error e => (some e, [])
  | Except.ok hits =>
      (none, (hits.map fun hit => hit.Fragments.map fun fv => fragmentLine fv.1 fv.2).flatten)

/-! ## The two commands -/

/-- Everything outside the process that the two commands talk to. -/
structure World (σ : Type) where
  bleve : Bleve σ
  New : String → Except Error σ
  Open : String → Except Error σ
  src : String → Source
  query : σ → String → Except Error (List Hit)

/-- The Go struct `Index`. -/
structure Index (σ : Type) where
  indexFilename : String
  index : σ

/-- The function `Open` of `pkg/index/index.go` (lines 29-39). -/
def Open {σ : Type} (w : World σ) (indexFilename : String) : Except Error (Index σ) :=
  match w.Open indexFilename with
  | Except.error e => Except.error e
  | Except.ok index => Except.ok ⟨indexFilename, index⟩

/-- The function `Create` of `pkg/index/index.go` (lines 41-51). -/
def Create {σ : Type} (w : World σ) (indexFilename : String) : Except Error (Index σ) :=
  match w.New indexFilename with
  | Except.error e => Except.error e
  | Except.ok index => Except.ok ⟨indexFilename, index⟩

/-- The operations on the store handle that a command performs, in order. `failed` tells
whether the operation returned an error. -/
inductive StoreOp where
  | create (indexFilename : String) (failed : Bool)
  | openIndex (indexFilename : String) (failed : Bool)
  | indexFromTarGz (tgzFilename : String) (failed : Bool)
  | search (terms : String) (failed : Bool)
  | close
deriving DecidableEq, Repr

/-- How a process ends: the store operations it performed, the message of `log.Fatalf` if it
was called, and the exit status (`log.Fatalf` exits with 1, a return from `main` with 0). -/
structure Exit where
  ops : List StoreOp
  fatal : Option String
  status : Nat
deriving DecidableEq, Repr

/-- The element of `os.Args` at an index known to exist. -/
def arg (args : List String) (i : Nat) : String := args.getD i ""

/-- The function `main` of `cmd/index/main.go`; `args` is `os.Args`. -/
def cmd.index.main {σ : Type} (w : World σ) (args : List String) : Exit :=
  if args.length < 3 then
    ⟨[], some ("Usage: " ++ arg args 0 ++ " <tar.gz> <index>"), 1⟩
  else
    let tgzFilename := arg args 1
    let indexFilename := arg args 2
    match Create w indexFilename with
    | Except.error e =>
        ⟨[StoreOp.create indexFilename true],
          some ("Error indexing '" ++ tgzFilename ++ "' into '" ++ indexFilename ++ "': " ++ e),
          1⟩
    | Except.ok idx =>
        -- `defer idx.Close()` runs when `main` returns; the result of the call is dropped
        let r := IndexFromTarGz w.bleve w.src idx.index tgzFilename hundred
        ⟨[StoreOp.create indexFilename false,
          StoreOp.indexFromTarGz tgzFilename r.err.isSome,
          StoreOp.close], none, 0⟩

/-- The function `main` of `cmd/search/main.go`; `args` is `os.Args`. -/
def cmd.search.main {σ : Type} (w : World σ) (args : List String) : Exit :=
  if args.length < 3 then
    ⟨[], some ("Usage: " ++ arg args 0 ++ " <index> <search terms>"), 1⟩
  else
    let indexFilename := arg args 1
    let searchTerms := strings.Join (args.drop 2) " "
    match Open w indexFilename with
    | Except.error e =>
        ⟨[StoreOp.openIndex indexFilename true],
          some ("Error opening index '" ++ indexFilename ++ "': " ++ e), 1⟩
    | Except.ok idx =>
        -- the result of the call is dropped
        let r := Search w.query idx.index searchTerms
        ⟨[StoreOp.openIndex indexFilename false, StoreOp.search searchTerms r.1.isSome],
          none, 0⟩

/-! ## Observations on a log -/

/-- The documents staged: the arguments of the calls to `batch.Index`, in call order. -/
def staged : List Step → List (String × IndexEntry)
  | [] => []
  | ⟨Call.batchIndex id data, _, _⟩ :: rest => (id, data) :: staged rest
  | _ :: rest => staged rest

/-- The bulk writes: the batches passed to `idx.index.Batch`, in call order. -/
def bulkWrites : List Step → List Batch
  | [] => []
  | ⟨Call.indexBatch batch, _, _⟩ :: rest => batch :: bulkWrites rest
  | _ :: rest => bulkWrites rest

/-- The tar stream behind a source; there is none when the file or the gzip header cannot be
read. -/
def Source.items : Source → List TarItem
  | Source.stream items => items
  | _ => []

/-- The regular-file entries of a tar stream, in archive order. -/
def regularEntries : List TarItem → List Header
  | [] => []
  | TarItem.entry header _ :: rest =>
      if header.Typeflag = TypeReg then header :: regularEntries rest else regularEntries rest
  | TarItem.bad _ :: rest => regularEntries rest

/-- The document of each regular-file entry whose body can be read, in archive order: the pair
of the entry's path and the record with that path as `ID` and the body as `Contents`. -/
def regularDocs : List TarItem → List (String × IndexEntry)
  | [] => []
  | TarItem.entry header body :: rest =>
      if header.Typeflag = TypeReg then
        match body with
        | Except.ok data => (header.Name, ⟨header.Name, data⟩) :: regularDocs rest
        | Except.error _ => regularDocs rest
      else regularDocs rest
  | TarItem.bad _ :: rest => regularDocs rest

/-! ## Concrete environments -/

/-- A store that accepts every document and every batch and remembers the batches committed. -/
def okBleve : Bleve (List Batch) :=
  { Index := fun _ _ _ _ => none
    Batch := fun s batch => (s ++ [batch], none) }

/-- A store that accepts every document and rejects every bulk write. -/
def fullBleve : Bleve (List Batch) :=
  { Index := fun _ _ _ _ => none
    Batch := fun s _ => (s, some "disk full") }

/-- The archive of the spec's scenario: two regular files and a directory. -/
def scenarioItems : List TarItem :=
  [TarItem.entry ⟨"a.txt", TypeReg⟩ (Except.ok "the quick fox"),
   TarItem.entry ⟨"b.txt", TypeReg⟩ (Except.ok "the quick dog"),
   TarItem.entry ⟨"c/", TypeDir⟩ (Except.ok "")]

/-- A file system in which every name is the scenario archive. -/
def scenarioSrc : String → Source := fun _ => Source.stream scenarioItems

/-- A file system in which every file has a malformed gzip header. -/
def badGzipSrc : String → Source := fun _ => Source.gzipErr "gzip: invalid header"

/-- A world whose store can be created and opened, whose archives all have a malformed gzip
header and whose every query fails. -/
def failingWorld : World (List Batch) :=
  { bleve := okBleve
    New := fun _ => Except.ok []
    Open := fun _ => Except.ok []
    src := badGzipSrc
    query := fun _ _ => Except.error "query failed" }

/-- An archive that holds a directory only. -/
def dirItems : List TarItem := [TarItem.entry ⟨"c/", TypeDir⟩ (Except.ok "")]

/-- A file system in which every name is the archive with a directory only. -/
def dirSrc : String → Source := fun _ => Source.stream dirItems

/-- A world in which everything succeeds: the store can be created and opened, every file is
the scenario archive and every query has one hit. -/
def okWorld : World (List Batch) :=
  { bleve := okBleve
    New := fun _ => Except.ok []
    Open := fun _ => Except.ok []
    src := scenarioSrc
    query := fun _ _ => Except.ok [⟨"a.txt", [("contents", ["the quick <mark>fox</mark>"])]⟩] }

/-! ## Predicates and functions used to state the properties -/

/-- The relation between the counter and the pending batch at the loop head: either nothing
has been staged yet (the counter still has its initial value `batchSize - 1`), or the counter
is the number of pending documents and is below `batchSize`. -/
def LoopInv (k : GoInt) (batch : Batch) (c : Int) : Prop :=
  (batch = [] ∧ c = k.val - 1) ∨ (0 ≤ c ∧ c < k.val ∧ (batch.length : Int) = c)

/-- The sizes of the groups when `T` documents are cut, in order, into groups of `K`: `T / K`
groups of `K`, then a group of `T % K` when that is not zero. -/
def chunkSizes (K T : Nat) : List Nat :=
  List.replicate (T / K) K ++ (if T % K = 0 then [] else [T % K])

/-- No step of the log reported a failure. -/
def Clean (l : List Step) : Prop := ∀ x ∈ l, x.err = none

/-- The shape of the log of a fail-fast run: either nothing failed and `nil` is returned, or
the one failing step is the last step and the returned error wraps the error of that step. -/
def FailFast (steps : List Step) (err : Option Error) : Prop :=
  (err = none ∧ Clean steps) ∨
    ∃ pre st e ctx, steps = pre ++ [st] ∧ Clean pre ∧ st.err = some e ∧ err = some (ctx ++ e)

/-- The number of calls of `tarReader.Next` in a log. -/
def tarNextCalls : List Step → Nat
  | [] => 0
  | ⟨Call.tarNext, _, _⟩ :: rest => tarNextCalls rest + 1
  | _ :: rest => tarNextCalls rest

/-- The run read the archive to its end: `tarReader.Next` was called once for every entry of
the tar stream and once more for `io.EOF`. The loop is left at the first failing call, so in
such a run the file opened, the gzip header was well formed and no call of the tar reader
failed. -/
def ReadToEnd (src : Source) (steps : List Step) : Prop :=
  tarNextCalls steps = src.items.length + 1

instance (src : Source) (steps : List Step) : Decidable (ReadToEnd src steps) := by
  unfold ReadToEnd
  infer_instance

/-- A store that accepts every document and the first bulk write, and rejects every later
bulk write. -/
def onceBleve : Bleve (List Batch) :=
  { Index := fun _ _ _ _ => none
    Batch := fun s batch => if s.length = 0 then (s ++ [batch], none) else (s, some "disk full") }

/-! ## Lemmas on logs -/

@[simp] theorem after_steps {σ : Type} (pre : List Step) (r : Run σ) :
    (r.after pre).steps = pre ++ r.steps := rfl

@[simp] theorem after_err {σ : Type} (pre : List Step) (r : Run σ) :
    (r.after pre).err = r.err := rfl

@[simp] theorem after_store {σ : Type} (pre : List Step) (r : Run σ) :
    (r.after pre).store = r.store := rfl

theorem bulkWrites_append (xs ys : List Step) :
    bulkWrites (xs ++ ys) = bulkWrites xs ++ bulkWrites ys := by
  induction xs with
  | nil => rfl
  | cons x xs ih =>
    obtain ⟨c, e, p⟩ := x
    cases c <;> simp [bulkWrites, ih]

theorem staged_append (xs ys : List Step) :
    staged (xs ++ ys) = staged xs ++ staged ys := by
  induction xs with
  | nil => rfl
  | cons x xs ih =>
    obtain ⟨c, e, p⟩ := x
    cases c <;> simp [staged, ih]

theorem regularDocs_length_le (items : List TarItem) :
    (regularDocs items).length ≤ (regularEntries items).length := by
  induction items with
  | nil => simp [regularDocs, regularEntries]
  | cons it rest ih =>
    cases it with
    | bad e => simpa [regularDocs, regularEntries] using ih
    | entry hd body =>
      cases body <;> by_cases hr : hd.Typeflag = TypeReg <;>
        simp [regularDocs, regularEntries, hr] <;> omega

/-! ## The loop: what is written is what was staged -/

/-- In a run of the loop that returns `nil`, the batches written, put end to end, are the
documents pending at the start followed by the documents of the regular entries still to come;
and every regular entry has a readable body. -/
theorem loop_flatten {σ : Type} (b : Bleve σ) (tgz : String) (k : GoInt) :
    ∀ (items : List TarItem) (batch : Batch) (c : Int) (s : σ),
      (ingestLoop b tgz k items batch c s).err = none →
      (bulkWrites (ingestLoop b tgz k items batch c s).steps).flatten
          = batch ++ regularDocs items
        ∧ staged (ingestLoop b tgz k items batch c s).steps = regularDocs items
        ∧ (regularDocs items).length = (regularEntries items).length := by
  intro items
  induction items with
  | nil =>
    intro batch c s h
    simp only [ingestLoop] at h ⊢
    split at h
    · split at h
      · simp at h
      · simp_all [bulkWrites, regularDocs, staged, regularEntries]
    · simp_all [bulkWrites, regularDocs, staged, regularEntries]
  | cons it rest ih =>
    intro batch c s h
    cases it with
    | bad e => simp [ingestLoop] at h
    | entry hd body =>
      simp only [ingestLoop] at h ⊢
      split at h
      · rename_i hr
        have := ih _ _ _ h
        simp_all [bulkWrites, bulkWrites_append, regularDocs, staged, staged_append,
          regularEntries]
      · split at h
        · simp at h
        · split at h
          · simp at h
          · split at h
            · split at h
              · simp at h
              · have := ih _ _ _ h
                simp_all [bulkWrites, bulkWrites_append, regularDocs, staged, staged_append,
                  regularEntries]
            · have := ih _ _ _ h
              simp_all [bulkWrites, bulkWrites_append, regularDocs, staged, staged_append,
                regularEntries]

/-- In every run of the loop the documents staged are, in order, the first documents of the
regular entries. -/
theorem loop_staged_initial {σ : Type} (b : Bleve σ) (tgz : String) (k : GoInt) :
    ∀ (items : List TarItem) (batch : Batch) (c : Int) (s : σ),
      staged (ingestLoop b tgz k items batch c s).steps <+: regularDocs items := by
  intro items
  induction items with
  | nil =>
    intro batch c s
    simp only [ingestLoop]
    split
    · split <;> simp [staged, regularDocs]
    · simp [staged, regularDocs]
  | cons it rest ih =>
    intro batch c s
    cases it with
    | bad e => simp [ingestLoop, staged]
    | entry hd body =>
      simp only [ingestLoop]
      split
      · rename_i hr
        have := ih batch c s
        simp_all [staged, staged_append, regularDocs]
      · rename_i hr
        simp only [ne_eq, not_not] at hr
        split
        · simp [staged]
        · split
          · simp [staged, regularDocs, hr]
          · split
            · split
              · simp [staged, regularDocs, hr]
              · rename_i s1 h1
                have := ih [] 0 s1
                simpa [staged, staged_append, regularDocs, hr, List.cons_prefix_cons] using this
            · rename_i data _ _ _
              have := ih (batch ++ [(hd.Name, ⟨hd.Name, data⟩)]) (wrapInt (c + 1)) s
              simpa [staged, staged_append, regularDocs, hr, List.cons_prefix_cons] using this


/-! ## The loop: no empty bulk write -/

/-- Every batch the loop writes holds at least one document. -/
theorem loop_writes_nonempty {σ : Type} (b : Bleve σ) (tgz : String) (k : GoInt) :
    ∀ (items : List TarItem) (batch : Batch) (c : Int) (s : σ),
      ∀ w ∈ bulkWrites (ingestLoop b tgz k items batch c s).steps, 0 < w.length := by
  intro items
  induction items with
  | nil =>
    intro batch c s w hw
    simp only [ingestLoop] at hw
    split at hw
    · split at hw <;> simp [bulkWrites] at hw <;> subst hw <;> assumption
    · simp [bulkWrites] at hw
  | cons it rest ih =>
    intro batch c s w hw
    cases it with
    | bad e => simp [ingestLoop, bulkWrites] at hw
    | entry hd body =>
      simp only [ingestLoop] at hw
      split at hw
      · simp only [after_steps, bulkWrites_append, bulkWrites, List.nil_append] at hw
        exact ih _ _ _ w hw
      · split at hw
        · simp [bulkWrites] at hw
        · split at hw
          · simp [bulkWrites] at hw
          · split at hw
            · split at hw
              · simp [bulkWrites] at hw
                subst hw
                simp
              · simp only [after_steps, bulkWrites_append, bulkWrites, List.nil_append,
                  List.cons_append, List.mem_cons] at hw
                rcases hw with hw | hw
                · subst hw
                  simp
                · exact ih _ _ _ w hw
            · simp only [after_steps, bulkWrites_append, bulkWrites, List.nil_append] at hw
              exact ih _ _ _ w hw

/-- From an empty batch, a stream without regular entries causes no bulk write and no
staging. -/
theorem loop_no_regular {σ : Type} (b : Bleve σ) (tgz : String) (k : GoInt) :
    ∀ (items : List TarItem) (c : Int) (s : σ), regularEntries items = [] →
      bulkWrites (ingestLoop b tgz k items [] c s).steps = []
        ∧ staged (ingestLoop b tgz k items [] c s).steps = [] := by
  intro items
  induction items with
  | nil => intro c s _; simp [ingestLoop, bulkWrites, staged]
  | cons it rest ih =>
    intro c s h
    cases it with
    | bad e => simp [ingestLoop, bulkWrites, staged]
    | entry hd body =>
      by_cases hr : hd.Typeflag = TypeReg
      · simp [regularEntries, hr] at h
      · simp only [regularEntries, hr, if_false] at h
        have := ih c s h
        simp [ingestLoop, hr, bulkWrites, bulkWrites_append, staged, staged_append, this]

/-! ## The loop: the counter and the pending batch -/

theorem wrapInt_of_range (x : Int) (h1 : MinInt ≤ x) (h2 : x ≤ MaxInt) : wrapInt x = x := by
  unfold MinInt at h1
  unfold MaxInt at h2
  unfold wrapInt
  omega

/-- With a positive batch size, the pending batch never holds more than `batchSize` documents
at any logged point of the loop. -/
theorem loop_pending_le {σ : Type} (b : Bleve σ) (tgz : String) (k : GoInt) (hk : 0 < k.val) :
    ∀ (items : List TarItem) (batch : Batch) (c : Int) (s : σ), LoopInv k batch c →
      ∀ st ∈ (ingestLoop b tgz k items batch c s).steps, (st.pending.length : Int) ≤ k.val := by
  have hle := k.le
  have hinv : ∀ (batch : Batch) (c : Int), LoopInv k batch c → (batch.length : Int) ≤ k.val := by
    intro batch c h
    rcases h with ⟨h1, _⟩ | ⟨_, h2, h3⟩
    · subst h1; simp; omega
    · omega
  have hnext : ∀ (batch : Batch) (c : Int) (x : String × IndexEntry), LoopInv k batch c →
      wrapInt (c + 1) = c + 1 ∧ ((batch ++ [x]).length : Int) ≤ k.val ∧
        (wrapInt (c + 1) ≠ k.val → LoopInv k (batch ++ [x]) (wrapInt (c + 1))) := by
    intro batch c x h
    have hw : wrapInt (c + 1) = c + 1 := by
      apply wrapInt_of_range
      · unfold MinInt; rcases h with ⟨_, h2⟩ | ⟨h1, _, _⟩ <;> omega
      · rcases h with ⟨_, h2⟩ | ⟨_, h2, _⟩ <;> omega
    refine ⟨hw, ?_, ?_⟩
    · rcases h with ⟨h1, _⟩ | ⟨_, h2, h3⟩
      · subst h1; simp; omega
      · simp; omega
    · intro hne
      rw [hw] at hne ⊢
      rcases h with ⟨_, h2⟩ | ⟨h1, h2, h3⟩
      · omega
      · right
        refine ⟨by omega, by omega, ?_⟩
        simp; omega
  intro items
  induction items with
  | nil =>
    intro batch c s hI st hst
    have := hinv batch c hI
    simp only [ingestLoop] at hst
    split at hst
    · split at hst <;> simp at hst <;> rcases hst with hst | hst <;> subst hst <;> simpa using this
    · simp at hst; subst hst; simpa using this
  | cons it rest ih =>
    intro batch c s hI st hst
    have hb := hinv batch c hI
    cases it with
    | bad e =>
      simp [ingestLoop] at hst
      subst hst
      simpa using hb
    | entry hd body =>
      simp only [ingestLoop] at hst
      split at hst
      · simp only [after_steps, List.mem_append, List.mem_singleton] at hst
        rcases hst with hst | hst
        · subst hst; simpa using hb
        · exact ih _ _ _ hI st hst
      · split at hst
        · simp at hst
          rcases hst with hst | hst <;> subst hst <;> simpa using hb
        · rename_i data
          obtain ⟨hw, hlen, hstep⟩ := hnext batch c (hd.Name, ⟨hd.Name, data⟩) hI
          split at hst
          · simp at hst
            rcases hst with hst | hst | hst <;> subst hst <;> simpa using hb
          · split at hst
            · split at hst
              · simp at hst
                rcases hst with hst | hst | hst | hst <;> subst hst <;>
                  first | (simpa using hb) | (simpa using hlen)
              · simp only [after_steps, List.mem_append, List.mem_cons, List.mem_singleton,
                  List.not_mem_nil, or_false] at hst
                rcases hst with (hst | hst | hst | hst) | hst
                · subst hst; simpa using hb
                · subst hst; simpa using hb
                · subst hst; simpa using hlen
                · subst hst; simpa using hlen
                · refine ih [] 0 _ ?_ st hst
                  right
                  exact ⟨le_refl 0, hk, by simp⟩
            · rename_i hne
              simp only [after_steps, List.mem_append, List.mem_cons, List.mem_singleton,
                  List.not_mem_nil, or_false] at hst
              rcases hst with (hst | hst | hst) | hst
              · subst hst; simpa using hb
              · subst hst; simpa using hb
              · subst hst; simpa using hlen
              · exact ih _ _ _ (hstep hne) st hst


/-! ## The loop: sizes of the bulk writes -/

theorem chunkSizes_lt (K T : Nat) (h : T < K) :
    chunkSizes K T = if T = 0 then [] else [T] := by
  simp [chunkSizes, Nat.div_eq_of_lt h, Nat.mod_eq_of_lt h]

theorem chunkSizes_add (K T : Nat) (hK : 0 < K) :
    chunkSizes K (K + T) = K :: chunkSizes K T := by
  simp [chunkSizes, Nat.add_div_left T hK, List.replicate_succ]

theorem chunkSizes_length (K T : Nat) (hK : 0 < K) :
    (chunkSizes K T).length = (T + K - 1) / K := by
  have hdm := Nat.div_add_mod T K
  have hlt := Nat.mod_lt T hK
  have key : T + K - 1 = (T % K + K - 1) + K * (T / K) := by omega
  rw [key, Nat.add_mul_div_left _ _ hK]
  by_cases h0 : T % K = 0
  · have h1 : (T % K + K - 1) / K = 0 := Nat.div_eq_of_lt (by omega)
    rw [h1]
    simp [chunkSizes, h0]
  · have h1 : T % K + K - 1 = (T % K - 1) + K := by omega
    have h2 : (T % K - 1) / K = 0 := Nat.div_eq_of_lt (by omega)
    rw [h1, Nat.add_div_right _ hK, h2]
    simp [chunkSizes, h0]
    omega

/-- One turn of the loop on an entry that is not a regular file. -/
theorem ingestLoop_skip {σ : Type} (b : Bleve σ) (tgz : String) (k : GoInt) (hd : Header)
    (body : Except Error String) (rest : List TarItem) (batch : Batch) (c : Int) (s : σ)
    (hr : hd.Typeflag ≠ TypeReg) :
    ingestLoop b tgz k (TarItem.entry hd body :: rest) batch c s
      = (ingestLoop b tgz k rest batch c s).after [⟨Call.tarNext, none, batch⟩] := by
  simp [ingestLoop, hr]

/-- One turn of the loop on a regular file that is staged without reaching `batchSize`. -/
theorem ingestLoop_keep {σ : Type} (b : Bleve σ) (tgz : String) (k : GoInt) (hd : Header)
    (data : String) (rest : List TarItem) (batch : Batch) (c : Int) (s : σ)
    (hr : hd.Typeflag = TypeReg) (hI : b.Index s batch hd.Name ⟨hd.Name, data⟩ = none)
    (hf : wrapInt (c + 1) ≠ k.val) :
    ingestLoop b tgz k (TarItem.entry hd (Except.ok data) :: rest) batch c s
      = (ingestLoop b tgz k rest (batch ++ [(hd.Name, ⟨hd.Name, data⟩)]) (wrapInt (c + 1))
          s).after
          [⟨Call.tarNext, none, batch⟩, ⟨Call.readAll, none, batch⟩,
            ⟨Call.batchIndex hd.Name ⟨hd.Name, data⟩, none,
              batch ++ [(hd.Name, ⟨hd.Name, data⟩)]⟩] := by
  simp only [ingestLoop, hr, hI, hf, ne_eq, not_true, if_false]

/-- One turn of the loop on a regular file that is staged and fills the batch, which is
written. -/
theorem ingestLoop_flush {σ : Type} (b : Bleve σ) (tgz : String) (k : GoInt) (hd : Header)
    (data : String) (rest : List TarItem) (batch : Batch) (c : Int) (s s1 : σ)
    (hr : hd.Typeflag = TypeReg) (hI : b.Index s batch hd.Name ⟨hd.Name, data⟩ = none)
    (hf : wrapInt (c + 1) = k.val)
    (hB : b.Batch s (batch ++ [(hd.Name, ⟨hd.Name, data⟩)]) = (s1, none)) :
    ingestLoop b tgz k (TarItem.entry hd (Except.ok data) :: rest) batch c s
      = (ingestLoop b tgz k rest [] 0 s1).after
          [⟨Call.tarNext, none, batch⟩, ⟨Call.readAll, none, batch⟩,
            ⟨Call.batchIndex hd.Name ⟨hd.Name, data⟩, none,
              batch ++ [(hd.Name, ⟨hd.Name, data⟩)]⟩,
            ⟨Call.indexBatch (batch ++ [(hd.Name, ⟨hd.Name, data⟩)]), none,
              batch ++ [(hd.Name, ⟨hd.Name, data⟩)]⟩] := by
  simp only [ingestLoop, hr, hI, hf, hB, ne_eq, not_true, if_false, if_true]

/-- One turn of the loop on a regular file whose bulk write fails returns an error. -/
theorem ingestLoop_flush_err {σ : Type} (b : Bleve σ) (tgz : String) (k : GoInt) (hd : Header)
    (data : String) (rest : List TarItem) (batch : Batch) (c : Int) (s s1 : σ) (e : Error)
    (hr : hd.Typeflag = TypeReg) (hI : b.Index s batch hd.Name ⟨hd.Name, data⟩ = none)
    (hf : wrapInt (c + 1) = k.val)
    (hB : b.Batch s (batch ++ [(hd.Name, ⟨hd.Name, data⟩)]) = (s1, some e)) :
    (ingestLoop b tgz k (TarItem.entry hd (Except.ok data) :: rest) batch c s).err ≠ none := by
  simp only [ingestLoop, hr, hI, hf, hB, ne_eq, not_true, if_false, if_true]
  simp

theorem tarNextCalls_append (xs ys : List Step) :
    tarNextCalls (xs ++ ys) = tarNextCalls xs + tarNextCalls ys := by
  induction xs with
  | nil => simp [tarNextCalls]
  | cons x xs ih =>
    obtain ⟨c, e, p⟩ := x
    cases c
    case tarNext => simp only [tarNextCalls, List.cons_append, List.append_eq, ih]; omega
    all_goals simp only [tarNextCalls, List.cons_append, List.append_eq, ih]

/-! ## The loop: reading the archive to its end -/

/-- The loop calls `tarReader.Next` at most once per entry and once for `io.EOF`; when it
does so, no call of the tar reader failed and the documents staged are those of the regular
entries, all of which have a readable body. -/
theorem loop_read_through {σ : Type} (b : Bleve σ) (tgz : String) (k : GoInt) :
    ∀ (items : List TarItem) (batch : Batch) (c : Int) (s : σ),
      tarNextCalls (ingestLoop b tgz k items batch c s).steps ≤ items.length + 1
        ∧ (tarNextCalls (ingestLoop b tgz k items batch c s).steps = items.length + 1 →
            staged (ingestLoop b tgz k items batch c s).steps = regularDocs items
              ∧ (regularDocs items).length = (regularEntries items).length
              ∧ (regularDocs items).map Prod.fst = (regularEntries items).map Header.Name
              ∧ ∀ st ∈ (ingestLoop b tgz k items batch c s).steps,
                  st.call = Call.tarNext ∨ st.call = Call.readAll → st.err = none) := by
  intro items
  induction items with
  | nil =>
    intro batch c s
    by_cases hp : batch.length > 0
    · rcases hB : b.Batch s batch with ⟨s1, _ | e⟩
      · simp [ingestLoop, hp, hB, tarNextCalls, staged, regularDocs, regularEntries]
      · simp [ingestLoop, hp, hB, tarNextCalls, staged, regularDocs, regularEntries]
    · simp [ingestLoop, hp, tarNextCalls, staged, regularDocs, regularEntries]
  | cons it rest ih =>
    intro batch c s
    cases it with
    | bad e => simp [ingestLoop, tarNextCalls]
    | entry hd body =>
      by_cases hr : hd.Typeflag = TypeReg
      · cases body with
        | error e => simp [ingestLoop, hr, tarNextCalls]
        | ok data =>
          cases hI : b.Index s batch hd.Name ⟨hd.Name, data⟩ with
          | some e => simp [ingestLoop, hr, hI, tarNextCalls]
          | none =>
            by_cases hf : wrapInt (c + 1) = k.val
            · rcases hB : b.Batch s (batch ++ [(hd.Name, ⟨hd.Name, data⟩)]) with ⟨s1, _ | e⟩
              · rw [ingestLoop_flush b tgz k hd data rest batch c s s1 hr hI hf hB]
                obtain ⟨h1, h2⟩ := ih [] 0 s1
                simp only [after_steps, List.cons_append, List.nil_append, List.append_eq, tarNextCalls, staged,
                  regularDocs, regularEntries, hr, if_true, List.length_cons, List.map_cons]
                refine ⟨by omega, fun h => ?_⟩
                obtain ⟨g1, g2, g3, g4⟩ := h2 (by omega)
                refine ⟨by simp [g1], by simp [g2], by simp [g3], ?_⟩
                intro st hst hcall
                simp only [List.mem_cons] at hst
                rcases hst with hst | hst | hst | hst | hst
                · subst hst; rfl
                · subst hst; rfl
                · subst hst; rfl
                · subst hst; rfl
                · exact g4 st hst hcall
              · simp only [ingestLoop, hr, hI, hf, hB, ne_eq, not_true, if_false, if_true]
                simp [tarNextCalls]
            · rw [ingestLoop_keep b tgz k hd data rest batch c s hr hI hf]
              obtain ⟨h1, h2⟩ := ih (batch ++ [(hd.Name, ⟨hd.Name, data⟩)]) (wrapInt (c + 1)) s
              simp only [after_steps, List.cons_append, List.nil_append, List.append_eq, tarNextCalls, staged,
                regularDocs, regularEntries, hr, if_true, List.length_cons, List.map_cons]
              refine ⟨by omega, fun h => ?_⟩
              obtain ⟨g1, g2, g3, g4⟩ := h2 (by omega)
              refine ⟨by simp [g1], by simp [g2], by simp [g3], ?_⟩
              intro st hst hcall
              simp only [List.mem_cons] at hst
              rcases hst with hst | hst | hst | hst
              · subst hst; rfl
              · subst hst; rfl
              · subst hst; rfl
              · exact g4 st hst hcall
      · rw [ingestLoop_skip b tgz k hd body rest batch c s hr]
        obtain ⟨h1, h2⟩ := ih batch c s
        simp only [after_steps, List.cons_append, List.nil_append, List.append_eq, tarNextCalls, staged,
          regularDocs, regularEntries, hr, if_false, List.length_cons]
        refine ⟨by omega, fun h => ?_⟩
        obtain ⟨g1, g2, g3, g4⟩ := h2 (by omega)
        refine ⟨by simp [g1], g2, g3, ?_⟩
        intro st hst hcall
        simp only [List.mem_cons] at hst
        rcases hst with hst | hst
        · subst hst; rfl
        · exact g4 st hst hcall

/-- A run of the loop that returns `nil` has called `tarReader.Next` once per entry and once
for `io.EOF`. -/
theorem loop_nil_read_through {σ : Type} (b : Bleve σ) (tgz : String) (k : GoInt) :
    ∀ (items : List TarItem) (batch : Batch) (c : Int) (s : σ),
      (ingestLoop b tgz k items batch c s).err = none →
      tarNextCalls (ingestLoop b tgz k items batch c s).steps = items.length + 1 := by
  intro items
  induction items with
  | nil =>
    intro batch c s h
    by_cases hp : batch.length > 0
    · rcases hB : b.Batch s batch with ⟨s1, _ | e⟩
      · simp [ingestLoop, hp, hB, tarNextCalls]
      · simp [ingestLoop, hp, hB, tarNextCalls]
    · simp [ingestLoop, hp, tarNextCalls]
  | cons it rest ih =>
    intro batch c s h
    cases it with
    | bad e => simp [ingestLoop] at h
    | entry hd body =>
      by_cases hr : hd.Typeflag = TypeReg
      · cases body with
        | error e => simp [ingestLoop, hr] at h
        | ok data =>
          cases hI : b.Index s batch hd.Name ⟨hd.Name, data⟩ with
          | some e => simp [ingestLoop, hr, hI] at h
          | none =>
            by_cases hf : wrapInt (c + 1) = k.val
            · rcases hB : b.Batch s (batch ++ [(hd.Name, ⟨hd.Name, data⟩)]) with ⟨s1, _ | e⟩
              · rw [ingestLoop_flush b tgz k hd data rest batch c s s1 hr hI hf hB] at h ⊢
                rw [after_err] at h
                simp [tarNextCalls, tarNextCalls_append, ih [] 0 s1 h]
              · exact absurd h
                  (ingestLoop_flush_err b tgz k hd data rest batch c s s1 e hr hI hf hB)
            · rw [ingestLoop_keep b tgz k hd data rest batch c s hr hI hf] at h ⊢
              rw [after_err] at h
              simp [tarNextCalls, tarNextCalls_append, ih _ _ s h]
      · rw [ingestLoop_skip b tgz k hd body rest batch c s hr] at h ⊢
        rw [after_err] at h
        simp [tarNextCalls, tarNextCalls_append, ih _ _ s h]

/-- Once the counter equals the number of pending documents, a run of the loop that returns
`nil` writes the pending documents and the regular entries still to come in groups of
`batchSize`. -/
theorem loop_sizes_steady {σ : Type} (b : Bleve σ) (tgz : String) (k : GoInt) (K : Nat)
    (hK : k.val = K) (hpos : 0 < K) :
    ∀ (items : List TarItem) (batch : Batch) (c : Int) (s : σ),
      (batch.length : Int) = c → batch.length < K →
      (ingestLoop b tgz k items batch c s).err = none →
      (bulkWrites (ingestLoop b tgz k items batch c s).steps).map List.length
        = chunkSizes K (batch.length + (regularEntries items).length) := by
  have hle := k.le
  intro items
  induction items with
  | nil =>
    intro batch c s hc hlt h
    simp only [regularEntries, List.length_nil, Nat.add_zero]
    rw [chunkSizes_lt K _ hlt]
    by_cases hp : batch.length > 0
    · rcases hB : b.Batch s batch with ⟨s1, _ | e⟩
      · have : batch.length ≠ 0 := by omega
        simp [ingestLoop, hp, hB, bulkWrites, this]
      · simp [ingestLoop, hp, hB] at h
    · have : batch.length = 0 := by omega
      simp [ingestLoop, bulkWrites, this]
  | cons it rest ih =>
    intro batch c s hc hlt h
    cases it with
    | bad e => simp [ingestLoop] at h
    | entry hd body =>
      by_cases hr : hd.Typeflag = TypeReg
      · cases body with
        | error e => simp [ingestLoop, hr] at h
        | ok data =>
          have hw : wrapInt (c + 1) = c + 1 := by
            apply wrapInt_of_range
            · unfold MinInt; omega
            · omega
          cases hI : b.Index s batch hd.Name ⟨hd.Name, data⟩ with
          | some e => simp [ingestLoop, hr, hI] at h
          | none =>
            by_cases hf : wrapInt (c + 1) = k.val
            · have hlen : batch.length + 1 = K := by rw [hw] at hf; omega
              rcases hB : b.Batch s (batch ++ [(hd.Name, ⟨hd.Name, data⟩)]) with ⟨s1, _ | e⟩
              · rw [ingestLoop_flush b tgz k hd data rest batch c s s1 hr hI hf hB] at h ⊢
                have := ih [] 0 s1 (by simp) (by simpa using hpos) h
                have e1 : batch.length + ((regularEntries rest).length + 1)
                    = K + (regularEntries rest).length := by omega
                simp only [regularEntries, hr, if_true, List.length_cons]
                rw [e1, chunkSizes_add K _ hpos]
                simpa [bulkWrites, bulkWrites_append, hlen] using this
              · exact absurd h
                  (ingestLoop_flush_err b tgz k hd data rest batch c s s1 e hr hI hf hB)
            · have hlt2 : (batch ++ [(hd.Name, (⟨hd.Name, data⟩ : IndexEntry))]).length < K := by
                rw [hw] at hf; simp; omega
              rw [ingestLoop_keep b tgz k hd data rest batch c s hr hI hf] at h ⊢
              rw [after_err] at h
              have := ih (batch ++ [(hd.Name, ⟨hd.Name, data⟩)]) (wrapInt (c + 1)) s
                (by simp; omega) hlt2 h
              have e1 : batch.length + ((regularEntries rest).length + 1)
                  = batch.length + 1 + (regularEntries rest).length := by omega
              simp only [regularEntries, hr, if_true, List.length_cons]
              rw [e1]
              simpa [bulkWrites, bulkWrites_append] using this
      · rw [ingestLoop_skip b tgz k hd body rest batch c s hr] at h ⊢
        have := ih _ _ _ hc hlt h
        simpa [bulkWrites, bulkWrites_append, regularEntries, hr] using this

/-- From the initial state of the loop, a run that returns `nil` writes the first regular
entry alone, then the remaining ones in groups of `batchSize`. -/
theorem loop_sizes_initial {σ : Type} (b : Bleve σ) (tgz : String) (k : GoInt) (K : Nat)
    (hK : k.val = K) (hpos : 0 < K) :
    ∀ (items : List TarItem) (s : σ),
      (ingestLoop b tgz k items [] (wrapInt (k.val - 1)) s).err = none →
      (bulkWrites (ingestLoop b tgz k items [] (wrapInt (k.val - 1)) s).steps).map List.length
        = if (regularEntries items).length = 0 then []
          else 1 :: chunkSizes K ((regularEntries items).length - 1) := by
  have hle := k.le
  have hw1 : wrapInt (k.val - 1) = k.val - 1 := by
    apply wrapInt_of_range
    · unfold MinInt; omega
    · omega
  have hw2 : wrapInt (wrapInt (k.val - 1) + 1) = k.val := by
    rw [hw1, wrapInt_of_range]
    · omega
    · have := k.ge; omega
    · omega
  generalize wrapInt (k.val - 1) = c0 at hw2
  intro items
  induction items with
  | nil => intro s h; simp [ingestLoop, bulkWrites, regularEntries]
  | cons it rest ih =>
    intro s h
    cases it with
    | bad e => simp [ingestLoop] at h
    | entry hd body =>
      by_cases hr : hd.Typeflag = TypeReg
      · cases body with
        | error e => simp [ingestLoop, hr] at h
        | ok data =>
          cases hI : b.Index s [] hd.Name ⟨hd.Name, data⟩ with
          | some e => simp [ingestLoop, hr, hI] at h
          | none =>
            rcases hB : b.Batch s ([] ++ [(hd.Name, ⟨hd.Name, data⟩)]) with ⟨s1, _ | e⟩
            · rw [ingestLoop_flush b tgz k hd data rest [] c0 s s1 hr hI hw2 hB] at h ⊢
              have := loop_sizes_steady b tgz k K hK hpos rest [] 0 s1 (by simp)
                (by simpa using hpos) h
              simpa [bulkWrites, bulkWrites_append, regularEntries, hr] using this
            · exact absurd h
                (ingestLoop_flush_err b tgz k hd data rest [] c0 s s1 e hr hI hw2 hB)
      · rw [ingestLoop_skip b tgz k hd body rest [] c0 s hr] at h ⊢
        have := ih _ h
        simpa [bulkWrites, bulkWrites_append, regularEntries, hr] using this

/-! ## The loop: fail-fast -/

theorem FailFast.prepend {steps : List Step} {err : Option Error} (pre : List Step)
    (hpre : Clean pre) (h : FailFast steps err) : FailFast (pre ++ steps) err := by
  rcases h with ⟨h1, h2⟩ | ⟨p, st, e, ctx, h1, h2, h3, h4⟩
  · left
    refine ⟨h1, ?_⟩
    intro x hx
    rcases List.mem_append.1 hx with hx | hx
    · exact hpre x hx
    · exact h2 x hx
  · right
    refine ⟨pre ++ p, st, e, ctx, by simp [h1], ?_, h3, h4⟩
    intro x hx
    rcases List.mem_append.1 hx with hx | hx
    · exact hpre x hx
    · exact h2 x hx

theorem FailFast.fail (pre : List Step) (st : Step) (e ctx : String) (hpre : Clean pre)
    (hst : st.err = some e) : FailFast (pre ++ [st]) (some (ctx ++ e)) :=
  Or.inr ⟨pre, st, e, ctx, rfl, hpre, hst, rfl⟩

/-- Every run of the loop is fail-fast. -/
theorem loop_failFast {σ : Type} (b : Bleve σ) (tgz : String) (k : GoInt) :
    ∀ (items : List TarItem) (batch : Batch) (c : Int) (s : σ),
      FailFast (ingestLoop b tgz k items batch c s).steps
        (ingestLoop b tgz k items batch c s).err := by
  intro items
  induction items with
  | nil =>
    intro batch c s
    simp only [ingestLoop]
    split
    · split
      · exact FailFast.fail [_] _ _ _ (by simp [Clean]) rfl
      · left; simp [Clean]
    · left; simp [Clean]
  | cons it rest ih =>
    intro batch c s
    cases it with
    | bad e => exact FailFast.fail [] _ _ _ (by simp [Clean]) rfl
    | entry hd body =>
      simp only [ingestLoop]
      split
      · exact FailFast.prepend _ (by simp [Clean]) (ih _ _ _)
      · split
        · exact FailFast.fail [_] _ _ _ (by simp [Clean]) rfl
        · split
          · exact FailFast.fail [_, _] _ _ _ (by simp [Clean]) rfl
          · split
            · split
              · exact FailFast.fail [_, _, _] _ _ _ (by simp [Clean]) rfl
              · exact FailFast.prepend _ (by simp [Clean]) (ih _ _ _)
            · exact FailFast.prepend _ (by simp [Clean]) (ih _ _ _)

/-- In a fail-fast log a failing step is the last step, nothing failed before it, and the
returned error wraps its error. -/
theorem FailFast.last {steps : List Step} {err : Option Error} (h : FailFast steps err)
    (pre : List Step) (st : Step) (post : List Step) (e : Error)
    (hs : steps = pre ++ st :: post) (he : st.err = some e) :
    post = [] ∧ Clean pre ∧ ∃ ctx, err = some (ctx ++ e) := by
  rcases h with ⟨_, h2⟩ | ⟨p, st1, e1, ctx, h1, h2, h3, h4⟩
  · have := h2 st (by simp [hs])
    simp [he] at this
  · rcases List.eq_nil_or_concat post with hp | ⟨L, y, hp⟩
    · subst hp
      rw [h1] at hs
      have hh := List.append_inj' hs (by simp)
      obtain ⟨ha, hb⟩ := hh
      simp only [List.cons.injEq, and_true] at hb
      subst ha hb
      rw [h3] at he
      cases he
      exact ⟨rfl, h2, ctx, h4⟩
    · subst hp
      rw [h1] at hs
      have hs2 : p ++ [st1] = (pre ++ st :: L) ++ [y] := by simpa using hs
      have hh := List.append_inj' hs2 (by simp)
      have := h2 st (by rw [hh.1]; simp)
      simp [he] at this

/-! ## Rendering of fragments -/

theorem replaceNewlines_append (repl xs ys : List Char) :
    replaceNewlines repl (xs ++ ys) = replaceNewlines repl xs ++ replaceNewlines repl ys := by
  induction xs with
  | nil => rfl
  | cons x xs ih => by_cases h : x = '\n' <;> simp [replaceNewlines, h, ih]

theorem replaceNewlines_space_length (xs : List Char) :
    (replaceNewlines [' '] xs).length = xs.length := by
  induction xs with
  | nil => rfl
  | cons x xs ih => by_cases h : x = '\n' <;> simp [replaceNewlines, h, ih]

theorem replaceNewlines_space_clean (xs : List Char) : '\n' ∉ replaceNewlines [' '] xs := by
  induction xs with
  | nil => simp [replaceNewlines]
  | cons x xs ih =>
    by_cases h : x = '\n'
    · simp [replaceNewlines, h, ih]
    · simp only [replaceNewlines, h, if_false, List.mem_cons, not_or]
      exact ⟨fun h2 => h h2.symm, ih⟩

theorem ReplaceAllString_append (a b repl : String) :
    re.ReplaceAllString (a ++ b) repl
      = re.ReplaceAllString a repl ++ re.ReplaceAllString b repl := by
  apply String.ext
  simp [re.ReplaceAllString, replaceNewlines_append]

theorem ReplaceAllString_Join (val : List String) :
    re.ReplaceAllString (strings.Join val " ") " "
      = strings.Join (val.map fun f => re.ReplaceAllString f " ") " " := by
  induction val with
  | nil => rfl
  | cons a rest ih =>
    cases rest with
    | nil => rfl
    | cons b rest =>
      have hsp : re.ReplaceAllString " " " " = " " := by decide
      simp only [strings.Join, List.map_cons, ReplaceAllString_append, hsp] at ih ⊢
      rw [ih]


/-! ## From the loop to `IndexFromTarGz` -/

theorem regularDocs_id (items : List TarItem) : ∀ d ∈ regularDocs items, d.2.ID = d.1 := by
  induction items with
  | nil => simp [regularDocs]
  | cons it rest ih =>
    cases it with
    | bad e => simpa [regularDocs] using ih
    | entry hd body =>
      cases body <;> by_cases hr : hd.Typeflag = TypeReg <;>
        simp [regularDocs, hr] <;> exact fun x y hxy => ih (x, y) hxy

theorem FailFast.clean {steps : List Step} (h : FailFast steps none) : Clean steps := by
  rcases h with ⟨_, h2⟩ | ⟨_, _, _, _, _, _, _, h4⟩
  · exact h2
  · simp at h4

/-- Every run of `IndexFromTarGz` is fail-fast. -/
theorem IndexFromTarGz_failFast {σ : Type} (b : Bleve σ) (src : String → Source) (s : σ)
    (tgz : String) (k : GoInt) :
    FailFast (IndexFromTarGz b src s tgz k).steps (IndexFromTarGz b src s tgz k).err := by
  unfold IndexFromTarGz
  cases src tgz with
  | openErr e => exact FailFast.fail [] _ _ _ (by simp [Clean]) rfl
  | gzipErr e => exact FailFast.fail [_] _ _ _ (by simp [Clean]) rfl
  | stream items => exact FailFast.prepend _ (by simp [Clean]) (loop_failFast b tgz k items _ _ _)

/-! ## The claims -/

/-- C1 (the code departs from it): on the archive of the spec's scenario (regular files
`a.txt` and `b.txt`, directory `c/`) with `batchSize = 2` and a store that accepts everything,
`IndexFromTarGz` returns `nil` and issues two bulk writes of one record each, where
`ceil(N / k)` is one bulk write of two records. -/
theorem C1_scenario_two_writes :
    (IndexFromTarGz okBleve scenarioSrc [] "archive.tar.gz" two).err = none
      ∧ (regularEntries (scenarioSrc "archive.tar.gz").items).length = 2
      ∧ (bulkWrites (IndexFromTarGz okBleve scenarioSrc [] "archive.tar.gz" two).steps).map
          List.length = [1, 1] := by
  decide

/-- C2: for every archive that a run of `IndexFromTarGz` reads to its end without error, for
every batch size and whatever the store answers to the bulk writes, the documents staged (the
calls to `batch.Index`) are exactly the regular-file entries in archive order, each once, so
their number is N and their ids are the paths of the regular-file entries; no call of the tar
reader failed in such a run. In every run, also one that stops early, the documents staged are
an initial segment of the regular-file entries, so an entry of another type is never staged;
and a run that returns `nil` has read the archive to its end. -/
theorem C2_staged_regular {σ : Type} (b : Bleve σ) (src : String → Source) (s : σ)
    (tgz : String) (k : GoInt) :
    (ReadToEnd (src tgz) (IndexFromTarGz b src s tgz k).steps →
        staged (IndexFromTarGz b src s tgz k).steps = regularDocs (src tgz).items
          ∧ (staged (IndexFromTarGz b src s tgz k).steps).length
              = (regularEntries (src tgz).items).length
          ∧ (staged (IndexFromTarGz b src s tgz k).steps).map Prod.fst
              = (regularEntries (src tgz).items).map Header.Name
          ∧ ∀ st ∈ (IndexFromTarGz b src s tgz k).steps,
              st.call = Call.tarNext ∨ st.call = Call.readAll → st.err = none)
      ∧ staged (IndexFromTarGz b src s tgz k).steps <+: regularDocs (src tgz).items
      ∧ (staged (IndexFromTarGz b src s tgz k).steps).length
          ≤ (regularEntries (src tgz).items).length
      ∧ ((IndexFromTarGz b src s tgz k).err = none →
          ReadToEnd (src tgz) (IndexFromTarGz b src s tgz k).steps) := by
  have hpre : staged (IndexFromTarGz b src s tgz k).steps <+: regularDocs (src tgz).items := by
    unfold IndexFromTarGz
    cases src tgz with
    | openErr e => simp [staged]
    | gzipErr e => simp [staged]
    | stream items =>
      simpa [staged, staged_append, Source.items] using loop_staged_initial b tgz k items _ _ s
  refine ⟨?_, hpre, le_trans hpre.length_le (regularDocs_length_le _), ?_⟩
  · intro h
    unfold ReadToEnd IndexFromTarGz at h
    unfold IndexFromTarGz
    cases hsrc : src tgz with
    | openErr e => simp [hsrc, tarNextCalls, Source.items] at h
    | gzipErr e => simp [hsrc, tarNextCalls, Source.items] at h
    | stream items =>
      simp only [hsrc, after_steps, tarNextCalls_append, tarNextCalls, Source.items,
        Nat.zero_add] at h
      obtain ⟨h1, h2, h3, h4⟩ := (loop_read_through b tgz k items _ _ s).2 h
      refine ⟨?_, ?_, ?_, ?_⟩
      · simpa [staged, staged_append, Source.items] using h1
      · simp [staged, staged_append, Source.items, h1, h2]
      · simpa [staged, staged_append, Source.items, h1] using h3
      · intro st hst hcall
        simp only [after_steps, List.mem_append, List.mem_cons, List.mem_singleton,
          List.not_mem_nil, or_false] at hst
        rcases hst with (hst | hst) | hst
        · subst hst; rfl
        · subst hst; rfl
        · exact h4 st hst hcall
  · intro h
    unfold ReadToEnd
    unfold IndexFromTarGz at h ⊢
    cases hsrc : src tgz with
    | openErr e => simp [hsrc] at h
    | gzipErr e => simp [hsrc] at h
    | stream items =>
      simp only [hsrc, after_err] at h
      have := loop_nil_read_through b tgz k items _ _ s h
      simp [tarNextCalls, tarNextCalls_append, Source.items, this]

/-- Witness for C2: the scenario archive with batch size 2 and a store that rejects the final
bulk write: the run returns an error, the archive was read to its end and both regular files
were staged. -/
theorem C2_staged_regular_witness :
    (ReadToEnd (scenarioSrc "archive.tar.gz")
          (IndexFromTarGz onceBleve scenarioSrc [] "archive.tar.gz" two).steps
        ∧ (IndexFromTarGz onceBleve scenarioSrc [] "archive.tar.gz" two).err
          = some "Error indexing last batch from archive.tar.gz: disk full")
      ∧ (staged (IndexFromTarGz onceBleve scenarioSrc [] "archive.tar.gz" two).steps).length
          = (regularEntries (scenarioSrc "archive.tar.gz").items).length :=
  ⟨by decide,
    ((C2_staged_regular onceBleve scenarioSrc [] "archive.tar.gz" two).1 (by decide)).2.1⟩

/-- C3: for every archive and every batch size, every bulk write issued by `IndexFromTarGz`
carries at least one record, and an archive without regular-file entries (also one that cannot
be opened or unzipped) produces no bulk write. -/
theorem C3_no_empty_write {σ : Type} (b : Bleve σ) (src : String → Source) (s : σ)
    (tgz : String) (k : GoInt) :
    (∀ w ∈ bulkWrites (IndexFromTarGz b src s tgz k).steps, 0 < w.length)
      ∧ (regularEntries (src tgz).items = [] →
          bulkWrites (IndexFromTarGz b src s tgz k).steps = []) := by
  unfold IndexFromTarGz
  cases src tgz with
  | openErr e => simp [bulkWrites]
  | gzipErr e => simp [bulkWrites]
  | stream items =>
    constructor
    · intro w hw
      simp only [after_steps, bulkWrites_append, bulkWrites, List.nil_append] at hw
      exact loop_writes_nonempty b tgz k items _ _ s w hw
    · intro h
      simp only [after_steps, bulkWrites_append, bulkWrites, List.nil_append]
      exact (loop_no_regular b tgz k items _ s h).1

/-- Witness for C3: the archive with a directory only causes no bulk write, and the first
bulk write of the scenario archive carries one record. -/
theorem C3_no_empty_write_witness :
    (regularEntries (dirSrc "archive.tar.gz").items = []
        ∧ bulkWrites (IndexFromTarGz okBleve dirSrc [] "archive.tar.gz" two).steps = [])
      ∧ 0 < [(("a.txt", ⟨"a.txt", "the quick fox"⟩) : String × IndexEntry)].length :=
  ⟨⟨by decide, (C3_no_empty_write okBleve dirSrc [] "archive.tar.gz" two).2 (by decide)⟩,
    (C3_no_empty_write okBleve scenarioSrc [] "archive.tar.gz" two).1 _ (by decide)⟩

/-- C4: in every run of `IndexFromTarGz` that returns `nil`, for every batch size, no call
failed, and the batches passed to the bulk writes, put end to end in call order, are exactly
the regular-file entries in archive order, each once, as the pair of the entry's path and the
record whose `ID` is that path and whose `Contents` is the entry's body. -/
theorem C4_writes_are_regular_docs {σ : Type} (b : Bleve σ) (src : String → Source) (s : σ)
    (tgz : String) (k : GoInt) (h : (IndexFromTarGz b src s tgz k).err = none) :
    (bulkWrites (IndexFromTarGz b src s tgz k).steps).flatten = regularDocs (src tgz).items
      ∧ (regularDocs (src tgz).items).length = (regularEntries (src tgz).items).length
      ∧ (∀ d ∈ (bulkWrites (IndexFromTarGz b src s tgz k).steps).flatten, d.2.ID = d.1)
      ∧ Clean (IndexFromTarGz b src s tgz k).steps := by
  have hc : Clean (IndexFromTarGz b src s tgz k).steps := by
    have := IndexFromTarGz_failFast b src s tgz k
    rw [h] at this
    exact this.clean
  have hf : (bulkWrites (IndexFromTarGz b src s tgz k).steps).flatten
        = regularDocs (src tgz).items
      ∧ (regularDocs (src tgz).items).length = (regularEntries (src tgz).items).length := by
    unfold IndexFromTarGz at h ⊢
    cases hsrc : src tgz with
    | openErr e => simp [hsrc] at h
    | gzipErr e => simp [hsrc] at h
    | stream items =>
      simp only [hsrc, after_err] at h
      obtain ⟨h1, _, h3⟩ := loop_flatten b tgz k items _ _ s h
      simp only [after_steps, bulkWrites_append, bulkWrites, List.nil_append, Source.items]
      exact ⟨by simpa using h1, h3⟩
  refine ⟨hf.1, hf.2, ?_, hc⟩
  rw [hf.1]
  exact regularDocs_id _

/-- Witness for C4: the scenario archive with batch size 2 and a store that accepts
everything. -/
theorem C4_writes_are_regular_docs_witness :
    (IndexFromTarGz okBleve scenarioSrc [] "archive.tar.gz" two).err = none
      ∧ (bulkWrites (IndexFromTarGz okBleve scenarioSrc [] "archive.tar.gz" two).steps).flatten
          = regularDocs (scenarioSrc "archive.tar.gz").items :=
  ⟨by decide,
    (C4_writes_are_regular_docs okBleve scenarioSrc [] "archive.tar.gz" two (by decide)).1⟩

/-- C5: for every batch size `k > 0` and every archive, at every logged point of a run of
`IndexFromTarGz` (after each call to the tar reader, to `batch.Index` and to the bulk write)
the local variable `batch` holds at most `k` records. -/
theorem C5_pending_le_batchSize {σ : Type} (b : Bleve σ) (src : String → Source) (s : σ)
    (tgz : String) (k : GoInt) (hk : 0 < k.val) :
    ∀ st ∈ (IndexFromTarGz b src s tgz k).steps, (st.pending.length : Int) ≤ k.val := by
  intro st hst
  unfold IndexFromTarGz at hst
  cases hsrc : src tgz with
  | openErr e =>
    simp [hsrc] at hst
    subst hst
    simpa using le_of_lt hk
  | gzipErr e =>
    simp [hsrc] at hst
    rcases hst with hst | hst <;> subst hst <;> simpa using le_of_lt hk
  | stream items =>
    simp only [hsrc, after_steps, List.mem_append, List.mem_cons, List.mem_singleton,
      List.not_mem_nil, or_false] at hst
    rcases hst with (hst | hst) | hst
    · subst hst; simpa using le_of_lt hk
    · subst hst; simpa using le_of_lt hk
    · refine loop_pending_le b tgz k hk items [] _ s (Or.inl ⟨rfl, ?_⟩) st hst
      apply wrapInt_of_range
      · unfold MinInt; omega
      · have := k.le; omega

/-- Witness for C5: the step that stages `a.txt` in the scenario run with batch size 2. -/
theorem C5_pending_le_batchSize_witness :
    0 < two.val
      ∧ (([("a.txt", ⟨"a.txt", "the quick fox"⟩)] : Batch).length : Int) ≤ two.val :=
  ⟨by decide,
    C5_pending_le_batchSize okBleve scenarioSrc [] "archive.tar.gz" two (by decide)
      ⟨Call.batchIndex "a.txt" ⟨"a.txt", "the quick fox"⟩, none,
        [("a.txt", ⟨"a.txt", "the quick fox"⟩)]⟩ (by decide)⟩


/-- C6: every run of `IndexFromTarGz` is fail-fast. A step that fails (opening the file,
reading the gzip header, reading the next tar header, reading a body, staging a record or a
bulk write) is the last step of the run, so no staging and no bulk write follows it; no step
failed before it; and the returned error is not `nil` and wraps the error of that step. When
the gzip header is malformed the run returns the unzip error without any staging or bulk write
and leaves the store in the state it had before the run. The run returns `nil` exactly when no
step failed. -/
theorem C6_fail_fast {σ : Type} (b : Bleve σ) (src : String → Source) (s : σ)
    (tgz : String) (k : GoInt) :
    (∀ (pre : List Step) (st : Step) (post : List Step) (e : Error),
        (IndexFromTarGz b src s tgz k).steps = pre ++ st :: post → st.err = some e →
          post = [] ∧ Clean pre ∧ ∃ ctx, (IndexFromTarGz b src s tgz k).err = some (ctx ++ e))
      ∧ (∀ e : Error, src tgz = Source.gzipErr e →
          (IndexFromTarGz b src s tgz k).err = some ("Unable to unzip " ++ tgz ++ ": " ++ e)
            ∧ bulkWrites (IndexFromTarGz b src s tgz k).steps = []
            ∧ staged (IndexFromTarGz b src s tgz k).steps = []
            ∧ (IndexFromTarGz b src s tgz k).store = s)
      ∧ ((IndexFromTarGz b src s tgz k).err = none ↔ Clean (IndexFromTarGz b src s tgz k).steps)
    := by
  refine ⟨?_, ?_, ?_, ?_⟩
  · intro pre st post e hs he
    exact (IndexFromTarGz_failFast b src s tgz k).last pre st post e hs he
  · intro e he
    simp [IndexFromTarGz, he, bulkWrites, staged]
  · intro h
    have := IndexFromTarGz_failFast b src s tgz k
    rw [h] at this
    exact this.clean
  · intro h
    rcases IndexFromTarGz_failFast b src s tgz k with ⟨h1, _⟩ | ⟨pre, st, e, ctx, h1, _, h3, _⟩
    · exact h1
    · have := h st (by rw [h1]; simp)
      rw [h3] at this
      cases this

/-- Witness for C6: a malformed gzip header, and a run whose first bulk write fails. -/
theorem C6_fail_fast_witness :
    ((IndexFromTarGz okBleve badGzipSrc [] "archive.tar.gz" two).err
          = some "Unable to unzip archive.tar.gz: gzip: invalid header"
        ∧ bulkWrites (IndexFromTarGz okBleve badGzipSrc [] "archive.tar.gz" two).steps = []
        ∧ staged (IndexFromTarGz okBleve badGzipSrc [] "archive.tar.gz" two).steps = []
        ∧ (IndexFromTarGz okBleve badGzipSrc [] "archive.tar.gz" two).store = [])
      ∧ (([] : List Step) = [] ∧
          Clean [⟨Call.osOpen, none, []⟩, ⟨Call.gzipNewReader, none, []⟩,
            ⟨Call.tarNext, none, []⟩, ⟨Call.readAll, none, []⟩,
            ⟨Call.batchIndex "a.txt" ⟨"a.txt", "the quick fox"⟩, none,
              [("a.txt", ⟨"a.txt", "the quick fox"⟩)]⟩]
          ∧ ∃ ctx, (IndexFromTarGz fullBleve scenarioSrc [] "archive.tar.gz" two).err
              = some (ctx ++ "disk full")) :=
  ⟨(C6_fail_fast okBleve badGzipSrc [] "archive.tar.gz" two).2.1 "gzip: invalid header" rfl,
    (C6_fail_fast fullBleve scenarioSrc [] "archive.tar.gz" two).1
      [⟨Call.osOpen, none, []⟩, ⟨Call.gzipNewReader, none, []⟩,
        ⟨Call.tarNext, none, []⟩, ⟨Call.readAll, none, []⟩,
        ⟨Call.batchIndex "a.txt" ⟨"a.txt", "the quick fox"⟩, none,
          [("a.txt", ⟨"a.txt", "the quick fox"⟩)]⟩]
      ⟨Call.indexBatch [("a.txt", ⟨"a.txt", "the quick fox"⟩)], some "disk full",
        [("a.txt", ⟨"a.txt", "the quick fox"⟩)]⟩
      [] "disk full" (by decide) rfl⟩

/-- C7 (the code departs from it): with a store that can be created and opened, an archive
with a malformed gzip header and a failing query, the ingestion and the query return an error,
yet both commands end with exit status 0 and without a fatal diagnostic. -/
theorem C7_failure_exits_zero :
    ((IndexFromTarGz failingWorld.bleve failingWorld.src [] "bad.tar.gz" hundred).err
          = some "Unable to unzip bad.tar.gz: gzip: invalid header"
        ∧ (cmd.index.main failingWorld ["index", "bad.tar.gz", "idx"]).status = 0
        ∧ (cmd.index.main failingWorld ["index", "bad.tar.gz", "idx"]).fatal = none)
      ∧ ((Search failingWorld.query [] "fox").1 = some "query failed"
        ∧ (cmd.search.main failingWorld ["search", "idx", "fox"]).status = 0
        ∧ (cmd.search.main failingWorld ["search", "idx", "fox"]).fatal = none) := by
  decide

/-- C8 (the code departs from it): the search command opens the store, runs the query and
exits without ever calling `Close`, while the index command closes the store it created. -/
theorem C8_search_never_closes :
    (cmd.search.main okWorld ["search", "idx", "fox"]).ops
        = [StoreOp.openIndex "idx" false, StoreOp.search "fox" false]
      ∧ StoreOp.close ∉ (cmd.search.main okWorld ["search", "idx", "fox"]).ops
      ∧ (cmd.index.main okWorld ["index", "archive.tar.gz", "idx"]).ops
        = [StoreOp.create "idx" false, StoreOp.indexFromTarGz "archive.tar.gz" false,
            StoreOp.close] := by
  decide

/-- C9 as stated fails: a fragment with two newline characters in a row is rendered with two
spaces, not with one. -/
theorem C9_counterexample :
    fragmentText ["a\n\nb"] = "a  b" ∧ fragmentText ["a\n\nb"] ≠ "a b" := by
  decide

/-- C9 (amended): for every list of highlight fragments, the fragment text that `Search`
prints contains no newline character, and it equals the fragments joined by a single space
with every newline character within a fragment replaced by one space, one for one, so that the
text is as long as the joined fragments. -/
theorem C9_fragment_text (val : List String) :
    '\n' ∉ (fragmentText val).data
      ∧ fragmentText val = strings.Join (val.map fun f => re.ReplaceAllString f " ") " "
      ∧ (fragmentText val).length = (strings.Join val " ").length := by
  refine ⟨?_, ReplaceAllString_Join val, ?_⟩
  · exact replaceNewlines_space_clean _
  · exact replaceNewlines_space_length _

/-- C10: for every batch size `k > 0` and every run of `IndexFromTarGz` that returns `nil` on
an archive with `N ≥ 1` regular-file entries, the sizes of the bulk writes are, in order: 1,
then `(N - 1) / k` times `k`, then `(N - 1) % k` when that is not zero; their number is
`1 + ceil((N - 1) / k)`. -/
theorem C10_write_sizes {σ : Type} (b : Bleve σ) (src : String → Source) (s : σ)
    (tgz : String) (k : GoInt) (hk : 0 < k.val)
    (h : (IndexFromTarGz b src s tgz k).err = none)
    (hN : 1 ≤ (regularEntries (src tgz).items).length) :
    (bulkWrites (IndexFromTarGz b src s tgz k).steps).map List.length
        = 1 :: (List.replicate (((regularEntries (src tgz).items).length - 1) / k.val.toNat)
              k.val.toNat
            ++ (if ((regularEntries (src tgz).items).length - 1) % k.val.toNat = 0 then []
                else [((regularEntries (src tgz).items).length - 1) % k.val.toNat]))
      ∧ (bulkWrites (IndexFromTarGz b src s tgz k).steps).length
        = 1 + ((regularEntries (src tgz).items).length - 1 + k.val.toNat - 1) / k.val.toNat := by
  have hK : k.val = (k.val.toNat : Int) := (Int.toNat_of_nonneg (le_of_lt hk)).symm
  have hpos : 0 < k.val.toNat := by omega
  have hs : (bulkWrites (IndexFromTarGz b src s tgz k).steps).map List.length
      = 1 :: chunkSizes k.val.toNat ((regularEntries (src tgz).items).length - 1) := by
    unfold IndexFromTarGz at h ⊢
    cases hsrc : src tgz with
    | openErr e => simp [hsrc] at h
    | gzipErr e => simp [hsrc] at h
    | stream items =>
      rw [hsrc] at hN
      simp only [hsrc, after_err] at h
      have := loop_sizes_initial b tgz k k.val.toNat hK hpos items s h
      have hne : (regularEntries items).length ≠ 0 := by
        simp only [Source.items] at hN
        omega
      simpa [bulkWrites, bulkWrites_append, Source.items, hne] using this
  refine ⟨hs, ?_⟩
  have hl := congrArg List.length hs
  simp only [List.length_map, List.length_cons, chunkSizes_length _ _ hpos] at hl
  omega

/-- Witness for C10: the scenario archive (N = 2) with batch size 2 gives the sizes 1, 1. -/
theorem C10_write_sizes_witness :
    (0 < two.val ∧ (IndexFromTarGz okBleve scenarioSrc [] "archive.tar.gz" two).err = none
        ∧ 1 ≤ (regularEntries (scenarioSrc "archive.tar.gz").items).length)
      ∧ (bulkWrites (IndexFromTarGz okBleve scenarioSrc [] "archive.tar.gz" two).steps).length
        = 1 + ((regularEntries (scenarioSrc "archive.tar.gz").items).length - 1
            + two.val.toNat - 1) / two.val.toNat :=
  ⟨by decide,
    (C10_write_sizes okBleve scenarioSrc [] "archive.tar.gz" two (by decide) (by decide)
      (by decide)).2⟩

end Blevetest
